import Mathlib

/-!
Verification of the model-selection and file-resolution policy of
`scripts/models/auto-update-models.py`.

The script's pure logic (candidate filtering, artifact resolution,
name normalisation, config/alias emission) is embedded as executable
Lean definitions over `String` / `List Char`; external effects (the hub
API, the downloader, the filesystem) are passed in as explicit data.
-/

/-! ### Generic string/list helpers (Python string-operation semantics) -/

/-- Substring test: does `pat` occur contiguously inside `hay`?
Mirrors Python's `pat in hay`. -/
def listContainsSub : List Char → List Char → Bool
  | [], pat => pat.isEmpty
  | c :: t, pat => pat.isPrefixOf (c :: t) || listContainsSub t pat

/-- Python `hay.replace(pat, rep)`: replace every non-overlapping
occurrence of `pat`, scanning left to right.  (With an empty pattern the
input is returned unchanged; all call sites use non-empty patterns.) -/
def pyReplace (pat rep : List Char) : List Char → List Char
  | [] => []
  | c :: cs =>
    if _hp : pat.isEmpty then c :: cs
    else if pat.isPrefixOf (c :: cs) then rep ++ pyReplace pat rep ((c :: cs).drop pat.length)
    else c :: pyReplace pat rep cs
termination_by l => l.length
decreasing_by
  · simp only [List.length_drop, List.length_cons]
    have hl : 0 < pat.length := by
      cases pat with
      | nil => simp at _hp
      | cons a t => simp
    omega
  · simp

/-- Python `s.split(sep)` accumulator loop (for non-empty `sep`). -/
def splitAux (sep : List Char) : List Char → List Char → List (List Char)
  | [], acc => [acc.reverse]
  | c :: cs, acc =>
    if _hs : sep.isEmpty then [acc.reverse ++ (c :: cs)]
    else if sep.isPrefixOf (c :: cs) then
      acc.reverse :: splitAux sep ((c :: cs).drop sep.length) []
    else splitAux sep cs (c :: acc)
termination_by l _ => l.length
decreasing_by
  · simp only [List.length_drop, List.length_cons]
    have hl : 0 < sep.length := by
      cases sep with
      | nil => simp at _hs
      | cons a t => simp
    omega
  · simp

/-- Python `s.split(sep)` for a non-empty separator. -/
def pySplit (s sep : String) : List String :=
  if sep.data.isEmpty then [s] else (splitAux sep.data s.data []).map String.mk

/-- Python `s.lower()` (ASCII; the hub identifiers in scope are ASCII). -/
def toLowerStr (s : String) : String := String.mk (s.data.map Char.toLower)

/-- Python `s.endswith(pat)`. -/
def endsWithStr (s pat : String) : Bool := pat.data.isSuffixOf s.data

/-- Python `pat in s`. -/
def strContains (s pat : String) : Bool := listContainsSub s.data pat.data

/-- Python `s.startswith(pat)`. -/
def strStarts (s pat : String) : Bool := pat.data.isPrefixOf s.data

/-- Python `s.replace(pat, rep)` on `String`. -/
def strReplace (s pat rep : String) : String :=
  String.mk (pyReplace pat.data rep.data s.data)

/-- Characters stripped by the final `strip('-_')` step. -/
def isStripChar (c : Char) : Bool := c == '-' || c == '_'

/-- Python `s.strip('-_')` on a character list. -/
def stripDashUnderscore (l : List Char) : List Char :=
  ((l.dropWhile isStripChar).reverse.dropWhile isStripChar).reverse

/-- `model.id.split('/')[-1]` (also `os.path.basename` for the
slash-separated file names in scope). -/
def lastSegment (s : String) : String := (pySplit s "/").getLastD s

example : pySplit "llama-3-8b" "llama" = ["", "-3-8b"] := by simp [pySplit, splitAux]
example : pySplit "a/b" "/" = ["a", "b"] := by simp [pySplit, splitAux]
example : pySplit "llamallama" "llama" = ["", "", ""] := by simp [pySplit, splitAux]
example : pySplit "abx" "x" = ["ab", ""] := by simp [pySplit, splitAux]
example : pyReplace "-gguf".data [] "foo-gguf-bar".data = "foo-bar".data := by
  simp [pyReplace]
example : pyReplace "-gguf".data [] "-g-ggufguf".data = "-gguf".data := by
  simp [pyReplace]
example : lastSegment "org/foo" = "foo" := by simp [lastSegment, pySplit, splitAux]
example : toLowerStr "Llama-3-8B" = "llama-3-8b" := by decide
example : strContains "abc" "bc" = true := by decide
example : endsWithStr "m.gguf" ".gguf" = true := by decide

/-! ### Data model -/

/-- A hub model descriptor (`{id, downloads}`), as returned by the catalog
query. -/
structure Model where
  id : String
  downloads : Nat
deriving DecidableEq

/-! ### Candidate Filter (`get_trending_gguf_models`, filtering loop) -/

/-- Large-size markers that exclude a model when `small_only` is set. -/
def largeSizeMarkers : List String := ["70b", "30b", "40b", "65b", "13b"]

/-- Small-size markers, at least one of which is required when
`small_only` is set. -/
def smallSizeMarkers : List String := ["1b", "2b", "3b", "5b", "7b", "8b"]

/-- The size filter applied to a model id when `small_only` is set:
no large marker, and at least one small marker (both checked on the
lower-cased id). -/
def sizePass (id : String) : Bool :=
  !(largeSizeMarkers.any fun x => strContains (toLowerStr id) x) &&
  (smallSizeMarkers.any fun x => strContains (toLowerStr id) x)

/-- The category filter: disabled when no (or an empty) category list is
given, otherwise the lower-cased id must contain some lower-cased
category. -/
def categoryPass (categories : Option (List String)) (id : String) : Bool :=
  match categories with
  | none => true
  | some cats => cats.isEmpty || cats.any fun c => strContains (toLowerStr id) (toLowerStr c)

/-- Whether the filtering loop keeps a model descriptor. -/
def keepModel (categories : Option (List String)) (small_only : Bool) (id : String) : Bool :=
  categoryPass categories id && (!small_only || sizePass id)

/-- The accumulation loop of `get_trending_gguf_models`: append each kept
model, and break as soon as the accumulated list reaches `max_models`
(the length test runs after the append, exactly as in the source). -/
def filterLoop (categories : Option (List String)) (small_only : Bool) (max_models : Nat) :
    List Model → List Model → List Model
  | acc, [] => acc
  | acc, m :: ms =>
    if keepModel categories small_only m.id then
      if max_models ≤ (acc ++ [m]).length then acc ++ [m]
      else filterLoop categories small_only max_models (acc ++ [m]) ms
    else filterLoop categories small_only max_models acc ms

/-- `get_trending_gguf_models`, with the hub's (popularity-ordered) model
list passed in explicitly. -/
def get_trending_gguf_models (models : List Model) (max_models : Nat) (small_only : Bool)
    (categories : Option (List String)) : List Model :=
  filterLoop categories small_only max_models [] models

/-! ### Artifact Resolver (`find_best_gguf_file`) -/

/-- Primary quantization marker. -/
def QUANTIZATION : String := "Q4_K_M"

/-- Fallback quantization markers, in the source's priority order. -/
def fallbackQuantPatterns : List String := ["Q4_0", "Q4_K", "Q3_K", "Q5_K", "Q2_K", "Q8_0"]

/-- `sorted(l)[0]` as an `Option`: head of the ascending sort. -/
def sortedHead (l : List String) : Option String :=
  (List.insertionSort (fun a b : String => a ≤ b) l).head?

/-- The fallback-pattern loop of `find_best_gguf_file`: for the first
pattern with a match among `gguf_files`, return `sorted(matches)[0]`. -/
def tryPatterns : List String → List String → Option String
  | [], _ => none
  | p :: ps, gguf_files =>
    let ms := gguf_files.filter fun f => strContains f p
    if ms.isEmpty then tryPatterns ps gguf_files else sortedHead ms

/-- `find_best_gguf_file`, with the repository file listing passed in
explicitly (the `except` path is modelled at the call site by an absent
listing). -/
def find_best_gguf_file (files : List String) : Option String :=
  let q4_files := files.filter fun f => endsWithStr f ".gguf" && strContains f QUANTIZATION
  if !q4_files.isEmpty then sortedHead q4_files
  else
    let gguf_files := files.filter fun f => endsWithStr f ".gguf"
    if !gguf_files.isEmpty then
      match tryPatterns fallbackQuantPatterns gguf_files with
      | some f => some f
      | none => sortedHead gguf_files
    else none

/-! ### Name Normalizer (`main`, lines 258-267) -/

/-- Keep ASCII alphanumerics, `-` and `_`; replace anything else with `-`. -/
def sanitizeChar (c : Char) : Char :=
  if c.isAlphanum || c == '-' || c == '_' then c else '-'

/-- `s.split(fam)[-1]`: the text after the last occurrence of `fam`. -/
def familySplitLast (s fam : String) : String := (pySplit s fam).getLastD ""

/-- The name normalisation applied to a model id in `main`: last path
segment, lower-case, `llama`/`mistral` family rewrite, removal of
`-gguf`, character sanitisation, and a final `strip('-_')`. -/
def normalizeName (id : String) : String :=
  let base := toLowerStr (lastSegment id)
  let famName :=
    if strContains base "llama" then "llama-" ++ familySplitLast base "llama"
    else if strContains base "mistral" then "mistral-" ++ familySplitLast base "mistral"
    else base
  let noGguf := pyReplace ("-gguf".data) [] famName.data
  let cleaned := noGguf.map sanitizeChar
  String.mk (stripDashUnderscore cleaned)

/-! ### Config Emitter (`create_model_config`) -/

/-- `max(2, min(cpu_cores // 2, 8))`. -/
def recommended_threads (cpu_cores : Nat) : Nat := max 2 (min (cpu_cores / 2) 8)

/-- The fixed tail of the emitted YAML (from `f16:` onwards), a literal
taken verbatim from the source's template string. -/
def configTail : String :=
  "\n  f16: true\ntemplate:\n  chat:\n    template: |\n      <s>\x7b\x7b- if .System \x7d\x7d\n      \x7b\x7b.System\x7d\x7d\n      \x7b\x7b- end \x7d\x7d\n      \x7b\x7b- range $i, $message := .Messages \x7d\x7d\n      \x7b\x7b- if eq $message.Role \"user\" \x7d\x7d\n      [INST] \x7b\x7b $message.Content \x7d\x7d [/INST]\n      \x7b\x7b- else if eq $message.Role \"assistant\" \x7d\x7d\n      \x7b\x7b $message.Content \x7d\x7d\n      \x7b\x7b- end \x7d\x7d\n      \x7b\x7b- end \x7d\x7d\n"

/-- The YAML text written by `create_model_config`. -/
def config_content (model_name model_file : String) (cpu_cores : Nat) : String :=
  "name: " ++ model_name ++
  "\nbackend: llama-cpp\nparameters:\n  model: /models/" ++ model_file ++
  "\n  context_size: 2048\n  threads: " ++ toString (recommended_threads cpu_cores) ++
  configTail

/-- `create_model_config` as a pure function: the path it writes to and
the content it writes there. -/
def create_model_config (model_name model_file config_dir : String) (cpu_cores : Nat) :
    String × String :=
  (config_dir ++ "/" ++ model_name ++ ".yaml", config_content model_name model_file cpu_cores)

/-! ### The per-model processing loop of `main` -/

/-- A model together with the observed behaviour of the external
services for it: `files` is the repository listing (`none` when the
listing call raised), `downloadOk` the outcome of the fetch. -/
structure ModelEnv where
  id : String
  files : Option (List String)
  downloadOk : Bool
deriving DecidableEq

/-- `find_best_gguf_file` including its exception path: a failed listing
is caught and yields `None`. -/
def resolveFiles (m : ModelEnv) : Option String :=
  match m.files with
  | none => none
  | some fs => find_best_gguf_file fs

/-- The files written and the downloaded-names list accumulated by a run. -/
structure RunResult where
  configs : List (String × String)
  names : List String
deriving DecidableEq

/-- One iteration of `main`'s download loop for one model. -/
def processStep (config_dir : String) (cpu_cores : Nat) (acc : RunResult) (m : ModelEnv) :
    RunResult :=
  match resolveFiles m with
  | none => acc
  | some file_name =>
    let model_name := normalizeName m.id
    if m.downloadOk then
      { configs := acc.configs ++ [create_model_config model_name (lastSegment file_name) config_dir cpu_cores],
        names := acc.names ++ [model_name] }
    else acc

/-- `main`'s download-and-configure loop over the candidate list. -/
def processModels (config_dir : String) (cpu_cores : Nat) (ms : List ModelEnv) : RunResult :=
  ms.foldl (processStep config_dir cpu_cores) ⟨[], []⟩

/-! ### Alias Emitter (`create_openai_aliases`) -/

/-- Substrings selecting a `gpt-3.5-turbo` alias source. -/
def gpt35Markers : List String := ["phi", "gemma-2", "mistral", "llama-3-1b"]

/-- Substrings selecting a `gpt-4` alias source. -/
def gpt4Markers : List String := ["llama-3-8", "mistral-7", "llama-3.1-8"]

/-- Content of the `gpt-3.5-turbo` alias: the source config with the
`name:` line rewritten. -/
def alias35content (small_model cfg : String) : String :=
  strReplace cfg ("name: " ++ small_model) "name: gpt-3.5-turbo"

/-- Content of the `gpt-4` alias: name rewritten, then context size
bumped from 2048 to 4096. -/
def alias4content (large_model cfg : String) : String :=
  strReplace (strReplace cfg ("name: " ++ large_model) "name: gpt-4")
    "context_size: 2048" "context_size: 4096"

/-- `create_openai_aliases` as a pure function.  `lookup` plays the role
of the filesystem read: given a downloaded model name it returns the
content of `<name>.yaml` when that file exists.  The result is the list
of `(file name, content)` pairs written. -/
def create_openai_aliases (lookup : String → Option String) (downloaded_models : List String) :
    List (String × String) :=
  if downloaded_models.isEmpty then []
  else
    let out1 :=
      match downloaded_models.filter (fun m => gpt35Markers.any fun x => strContains (toLowerStr m) x) with
      | [] => []
      | small_model :: _ =>
        match lookup small_model with
        | none => []
        | some cfg => [("gpt-3.5-turbo.yaml", alias35content small_model cfg)]
    let out2 :=
      match downloaded_models.filter (fun m => gpt4Markers.any fun x => strContains (toLowerStr m) x) with
      | [] => []
      | large_model :: _ =>
        match lookup large_model with
        | none => []
        | some cfg => [("gpt-4.yaml", alias4content large_model cfg)]
    out1 ++ out2

/-! ### Spec-side Artifact Resolver (transcribed from the specification,
section 4.2, for comparison with the source's `find_best_gguf_file`) -/

/-- Fold computing the lexicographic minimum of `a :: l`. -/
def foldlMin (a : String) (l : List String) : String :=
  l.foldl (fun x y => if y < x then y else x) a

/-- The lexicographically first string of a list (`none` when empty). -/
def lexFirst : List String → Option String
  | [] => none
  | x :: xs => some (foldlMin x xs)

/-- "Among all archive-extension files, ... pick the lexicographically
first file whose name contains the marker". -/
def lexFirstMatch (marker : String) (gguf_files : List String) : Option String :=
  lexFirst (gguf_files.filter fun f => strContains f marker)

/-- The resolver as the specification words it: primary marker first,
then the fallback markers in order, then any archive file, else no
suitable file. -/
def resolverSpec (files : List String) : Option String :=
  let gguf_files := files.filter fun f => endsWithStr f ".gguf"
  match lexFirstMatch QUANTIZATION gguf_files with
  | some f => some f
  | none =>
    match fallbackQuantPatterns.findSome? (fun p => lexFirstMatch p gguf_files) with
    | some f => some f
    | none => lexFirst gguf_files

/-! ### Lemmas: prefix and substring tests -/

theorem isPrefixOf_iff_exists : ∀ (p l : List Char), p.isPrefixOf l = true ↔ ∃ t, l = p ++ t
  | [], l => by simp [List.isPrefixOf]
  | a :: as, [] => by simp [List.isPrefixOf]
  | a :: as, b :: bs => by
    simp only [List.isPrefixOf, Bool.and_eq_true, beq_iff_eq, isPrefixOf_iff_exists as bs,
      List.cons_append]
    constructor
    · rintro ⟨rfl, t, rfl⟩
      exact ⟨t, rfl⟩
    · rintro ⟨t, h⟩
      injection h with h1 h2
      exact ⟨h1.symm, t, h2⟩

theorem isPrefixOf_self_append (p t : List Char) : p.isPrefixOf (p ++ t) = true :=
  (isPrefixOf_iff_exists p (p ++ t)).mpr ⟨t, rfl⟩

theorem drop_len_append : ∀ (a b : List Char), (a ++ b).drop a.length = b
  | [], _ => rfl
  | _ :: xs, b => by simp [drop_len_append xs b]

theorem listContainsSub_iff : ∀ (hay pat : List Char),
    listContainsSub hay pat = true ↔ ∃ s t, hay = s ++ pat ++ t
  | [], pat => by
    simp only [listContainsSub, List.isEmpty_iff]
    constructor
    · rintro rfl
      exact ⟨[], [], rfl⟩
    · rintro ⟨s, t, h⟩
      rcases List.append_eq_nil.mp h.symm with ⟨h1, rfl⟩
      rcases List.append_eq_nil.mp h1 with ⟨rfl, rfl⟩
      rfl
  | c :: hs, pat => by
    simp only [listContainsSub, Bool.or_eq_true]
    constructor
    · rintro (hpre | htail)
      · rcases (isPrefixOf_iff_exists pat (c :: hs)).mp hpre with ⟨t, ht⟩
        exact ⟨[], t, by simpa using ht⟩
      · rcases (listContainsSub_iff hs pat).mp htail with ⟨s, t, ht⟩
        exact ⟨c :: s, t, by simp [ht]⟩
    · rintro ⟨s, t, h⟩
      cases s with
      | nil =>
        left
        rw [List.nil_append] at h
        rw [h]
        exact isPrefixOf_self_append pat t
      | cons d ds =>
        right
        rw [List.cons_append, List.cons_append] at h
        injection h with h1 h2
        exact (listContainsSub_iff hs pat).mpr ⟨ds, t, by simpa using h2⟩

theorem listContainsSub_here (pat t : List Char) : listContainsSub (pat ++ t) pat = true :=
  (listContainsSub_iff (pat ++ t) pat).mpr ⟨[], t, by simp⟩

theorem listContainsSub_append_left (s : List Char) {hay pat : List Char}
    (h : listContainsSub hay pat = true) : listContainsSub (s ++ hay) pat = true := by
  rcases (listContainsSub_iff hay pat).mp h with ⟨a, t, rfl⟩
  exact (listContainsSub_iff _ pat).mpr ⟨s ++ a, t, by simp⟩

theorem listContainsSub_append_right (u : List Char) {hay pat : List Char}
    (h : listContainsSub hay pat = true) : listContainsSub (hay ++ u) pat = true := by
  rcases (listContainsSub_iff hay pat).mp h with ⟨a, t, rfl⟩
  exact (listContainsSub_iff _ pat).mpr ⟨a, t ++ u, by simp⟩

theorem char_mem_of_contains {hay pat : List Char} (h : listContainsSub hay pat = true)
    {c : Char} (hc : c ∈ pat) : c ∈ hay := by
  rcases (listContainsSub_iff hay pat).mp h with ⟨s, t, rfl⟩
  simp [hc]

theorem strData_append (s t : String) : (s ++ t).data = s.data ++ t.data := rfl

theorem filter_and_eq_filter_filter {α} (p q : α → Bool) :
    ∀ l : List α, l.filter (fun a => p a && q a) = (l.filter p).filter q
  | [] => rfl
  | x :: xs => by
    by_cases hp : p x <;> by_cases hq : q x <;>
      simp [List.filter_cons, hp, hq, filter_and_eq_filter_filter p q xs]

theorem filter_nil_of_none {α} (p : α → Bool) :
    ∀ {l : List α}, (∀ a ∈ l, p a = false) → l.filter p = []
  | [], _ => rfl
  | x :: xs, h => by
    have hx := h x (by simp)
    simp only [List.filter_cons, hx, Bool.false_eq_true, if_false]
    exact filter_nil_of_none p fun a ha => h a (by simp [ha])

/-! ### Lemmas: `pyReplace` -/

theorem pyReplace_nil (pat rep : List Char) : pyReplace pat rep [] = [] := by
  simp [pyReplace]

theorem pyReplace_cons_not_pre {pat rep : List Char} {c : Char} {l : List Char}
    (h : pat.isPrefixOf (c :: l) = false) :
    pyReplace pat rep (c :: l) = c :: pyReplace pat rep l := by
  have hpe : pat.isEmpty = false := by
    cases pat with
    | nil => simp [List.isPrefixOf] at h
    | cons p pt => rfl
  rw [pyReplace]
  simp [hpe, h]

theorem pyReplace_cons_ne {p0 : Char} {pt rep : List Char} {c : Char} {l : List Char}
    (hne : c ≠ p0) :
    pyReplace (p0 :: pt) rep (c :: l) = c :: pyReplace (p0 :: pt) rep l := by
  apply pyReplace_cons_not_pre
  simp [List.isPrefixOf]
  intro he
  exact absurd he.symm hne

theorem pyReplace_front {pat rep l : List Char} (h : pat ≠ []) :
    pyReplace pat rep (pat ++ l) = rep ++ pyReplace pat rep l := by
  cases pat with
  | nil => exact absurd rfl h
  | cons p0 pt =>
    rw [List.cons_append, pyReplace]
    have hpre : (p0 :: pt).isPrefixOf (p0 :: (pt ++ l)) = true := by
      rw [← List.cons_append]
      exact isPrefixOf_self_append _ _
    simp only [List.isEmpty_cons, hpre, if_true, dite_false]
    rw [← List.cons_append, drop_len_append]
    simp

theorem pyReplace_no_occ {pat rep : List Char} :
    ∀ {l : List Char}, listContainsSub l pat = false → pyReplace pat rep l = l
  | [], _ => pyReplace_nil pat rep
  | c :: cs, h => by
    rw [listContainsSub, Bool.or_eq_false_iff] at h
    rw [pyReplace_cons_not_pre h.1, pyReplace_no_occ h.2]

theorem pyReplace_append_not_head {p0 : Char} {pt rep : List Char} :
    ∀ {a : List Char}, (∀ c ∈ a, c ≠ p0) →
      ∀ b, pyReplace (p0 :: pt) rep (a ++ b) = a ++ pyReplace (p0 :: pt) rep b
  | [], _, b => by simp
  | c :: a', h, b => by
    rw [List.cons_append, pyReplace_cons_ne (h c (by simp)),
      pyReplace_append_not_head (fun d hd => h d (by simp [hd])) b]
    simp

/-- The `-gguf` marker has no self-overlap: an occurrence of the marker
that begins strictly inside `c :: a` and runs into a following copy of
the marker forces the marker to be contained in `c :: a ++ b` itself. -/
theorem gguf_straddle_contains {a b : List Char} {c : Char}
    (h : ∃ t, c :: (a ++ ("-gguf".data ++ b)) = "-gguf".data ++ t) :
    listContainsSub (c :: (a ++ b)) "-gguf".data = true := by
  obtain ⟨t, ht⟩ := h
  have hgg : "-gguf".data = ['-', 'g', 'g', 'u', 'f'] := rfl
  rw [hgg] at ht ⊢
  simp only [List.cons_append, List.nil_append] at ht
  injection ht with hc ht
  subst hc
  cases a with
  | nil => simp at ht
  | cons c2 a2 =>
    simp only [List.cons_append] at ht
    injection ht with hc2 ht
    subst hc2
    cases a2 with
    | nil => simp at ht
    | cons c3 a3 =>
      simp only [List.cons_append] at ht
      injection ht with hc3 ht
      subst hc3
      cases a3 with
      | nil => simp at ht
      | cons c4 a4 =>
        simp only [List.cons_append] at ht
        injection ht with hc4 ht
        subst hc4
        cases a4 with
        | nil => simp at ht
        | cons c5 a5 =>
          simp only [List.cons_append] at ht
          injection ht with hc5 ht
          subst hc5
          have := listContainsSub_here ['-', 'g', 'g', 'u', 'f'] (a5 ++ b)
          simpa using this

/-- Claim C5 (amended): the normalizer's `-gguf` removal step is a
global replace, not a trailing strip.  For every repo segment of the
form `a ++ "-gguf" ++ b` in which `-gguf` occurs nowhere else and is not
re-formed by the deletion (i.e. `-gguf` is not a substring of `a ++ b`),
the removal step deletes the occurrence — even a non-trailing one —
returning `a ++ b`. -/
theorem claim_C5 (a b : List Char)
    (h : listContainsSub (a ++ b) "-gguf".data = false) :
    pyReplace "-gguf".data [] (a ++ "-gguf".data ++ b) = a ++ b := by
  rw [List.append_assoc]
  induction a with
  | nil =>
    simp only [List.nil_append] at h ⊢
    rw [pyReplace_front (by decide)]
    rw [pyReplace_no_occ h]
    simp
  | cons c a' ih =>
    rw [List.cons_append] at h
    rcases Bool.eq_false_or_eq_true
        ("-gguf".data.isPrefixOf (c :: (a' ++ ("-gguf".data ++ b)))) with hq | hq
    · exfalso
      have hex : ∃ t, c :: (a' ++ ("-gguf".data ++ b)) = "-gguf".data ++ t :=
        (isPrefixOf_iff_exists _ _).mp hq
      have hc := gguf_straddle_contains hex
      rw [h] at hc
      exact Bool.false_ne_true hc
    · have h' : listContainsSub (a' ++ b) "-gguf".data = false := by
        rw [listContainsSub, Bool.or_eq_false_iff] at h
        exact h.2
      have hstep : pyReplace "-gguf".data [] ((c :: a') ++ ("-gguf".data ++ b)) =
          c :: pyReplace "-gguf".data [] (a' ++ ("-gguf".data ++ b)) :=
        pyReplace_cons_not_pre hq
      rw [hstep, ih h']
      rfl

/-- Claim C5 counterexample: in the repo segment `foo-gguf-bar` the
`-gguf` marker occurs only at a non-trailing position, yet the
normalizer's output does not preserve it (the code removes every
occurrence, not only a trailing one). -/
theorem claim_C5_cex :
    strContains "foo-gguf-bar" "-gguf" = true ∧
    endsWithStr "foo-gguf-bar" "-gguf" = false ∧
    normalizeName "org/foo-gguf-bar" = "foo-bar" ∧
    strContains (normalizeName "org/foo-gguf-bar") "-gguf" = false := by
  have h : normalizeName "org/foo-gguf-bar" = "foo-bar" := by
    simp [normalizeName, lastSegment, pySplit, splitAux, toLowerStr, familySplitLast,
      strContains, listContainsSub, pyReplace, sanitizeChar, stripDashUnderscore, isStripChar]
  refine ⟨by decide, by decide, h, ?_⟩
  rw [h]
  decide

/-- Witness for claim C5's theorem at a concrete input. -/
theorem claim_C5_wit :
    listContainsSub ("foo".data ++ "-bar".data) "-gguf".data = false ∧
    pyReplace "-gguf".data [] ("foo".data ++ "-gguf".data ++ "-bar".data) =
      "foo".data ++ "-bar".data :=
  ⟨by decide, claim_C5 "foo".data "-bar".data (by decide)⟩

/-- Claim C4 counterexample: the normalizer is not idempotent on the
already-normalized name `llama-3-8b`. -/
theorem claim_C4_cex : normalizeName "llama-3-8b" ≠ "llama-3-8b" := by
  have h : normalizeName "llama-3-8b" = "llama--3-8b" := by
    simp [normalizeName, lastSegment, pySplit, splitAux, toLowerStr, familySplitLast,
      strContains, listContainsSub, pyReplace, sanitizeChar, stripDashUnderscore, isStripChar]
  rw [h]
  decide

/-- Claim C4 (amended): applied to the already-normalized name
`llama-3-8b`, the normalization (family rewrite for `llama`/`mistral`,
`-gguf` strip, character replacement, trim) yields `llama--3-8b` — the
family rewrite prefixes `llama-` to the suffix after the last `llama`,
which itself starts with `-`, so the name gains a second hyphen instead
of being a fixed point. -/
theorem claim_C4 : normalizeName "llama-3-8b" = "llama--3-8b" := by
  simp [normalizeName, lastSegment, pySplit, splitAux, toLowerStr, familySplitLast,
    strContains, listContainsSub, pyReplace, sanitizeChar, stripDashUnderscore, isStripChar]

/-! ### Lemmas: `sorted(l)[0]` computes the lexicographic minimum -/

theorem foldlMin_cons (a y : String) (ys : List String) :
    foldlMin a (y :: ys) = foldlMin (if y < a then y else a) ys := rfl

theorem foldlMin_mem : ∀ (l : List String) (a : String), foldlMin a l ∈ a :: l
  | [], a => by simp [foldlMin]
  | y :: ys, a => by
    rw [foldlMin_cons]
    have ih := foldlMin_mem ys (if y < a then y else a)
    by_cases hy : y < a <;> simp [hy] at ih ⊢ <;> tauto

theorem foldlMin_le : ∀ (l : List String) (a : String),
    foldlMin a l ≤ a ∧ ∀ y ∈ l, foldlMin a l ≤ y
  | [], a => ⟨le_refl a, by simp⟩
  | y :: ys, a => by
    rw [foldlMin_cons]
    by_cases hy : y < a
    · rw [if_pos hy]
      obtain ⟨ih1, ih2⟩ := foldlMin_le ys y
      refine ⟨le_trans ih1 (le_of_lt hy), ?_⟩
      intro z hz
      rcases List.mem_cons.mp hz with rfl | hz
      · exact ih1
      · exact ih2 z hz
    · rw [if_neg hy]
      obtain ⟨ih1, ih2⟩ := foldlMin_le ys a
      refine ⟨ih1, ?_⟩
      intro z hz
      rcases List.mem_cons.mp hz with rfl | hz
      · exact le_trans ih1 (not_lt.mp hy)
      · exact ih2 z hz

theorem sortedHead_eq_lexFirst (l : List String) : sortedHead l = lexFirst l := by
  cases l with
  | nil => rfl
  | cons x xs =>
    show sortedHead (x :: xs) = some (foldlMin x xs)
    unfold sortedHead
    have hperm := List.perm_insertionSort (fun a b : String => a ≤ b) (x :: xs)
    have hsorted := List.sorted_insertionSort (fun a b : String => a ≤ b) (x :: xs)
    cases hs : List.insertionSort (fun a b : String => a ≤ b) (x :: xs) with
    | nil =>
      exfalso
      have hlen := hperm.length_eq
      rw [hs] at hlen
      simp at hlen
    | cons hd tl =>
      rw [hs] at hperm hsorted
      have hmem_hd : hd ∈ x :: xs := hperm.mem_iff.mp (by simp)
      have hmono := List.rel_of_sorted_cons hsorted
      have hmem_m : foldlMin x xs ∈ x :: xs := foldlMin_mem xs x
      have hm_le : ∀ y ∈ x :: xs, foldlMin x xs ≤ y := by
        intro y hy
        rcases List.mem_cons.mp hy with rfl | hy
        · exact (foldlMin_le xs y).1
        · exact (foldlMin_le xs x).2 y hy
      have hmem_m' : foldlMin x xs ∈ hd :: tl := hperm.mem_iff.mpr hmem_m
      have h1 : hd ≤ foldlMin x xs := by
        rcases List.mem_cons.mp hmem_m' with h | h
        · rw [h]
        · exact hmono _ h
      have h2 : foldlMin x xs ≤ hd := hm_le hd hmem_hd
      have : hd = foldlMin x xs := le_antisymm h1 h2
      simp [this]

theorem tryPatterns_eq_findSome (gguf : List String) :
    ∀ ps : List String, tryPatterns ps gguf = ps.findSome? (fun p => lexFirstMatch p gguf)
  | [] => rfl
  | p :: ps => by
    simp only [tryPatterns, List.findSome?_cons]
    cases hf : gguf.filter (fun f => strContains f p) with
    | nil =>
      have hm : lexFirstMatch p gguf = none := by
        simp [lexFirstMatch, hf, lexFirst]
      rw [hm]
      simp [List.isEmpty_nil]
      exact tryPatterns_eq_findSome gguf ps
    | cons y ys =>
      have hm : lexFirstMatch p gguf = some (foldlMin y ys) := by
        simp [lexFirstMatch, hf, lexFirst]
      rw [hm]
      simp [List.isEmpty_cons]
      rw [← hf]
      rw [sortedHead_eq_lexFirst]
      simp [hf, lexFirst]

/-- Claim C1: for every file listing, the resolver returns the
lexicographically first `.gguf` file containing `Q4_K_M` when one
exists; otherwise it tries the markers `Q4_0, Q4_K, Q3_K, Q5_K, Q2_K,
Q8_0` in exactly that order over the `.gguf` files and returns the
lexicographically first file matching the first marker with any match;
otherwise the lexicographically first `.gguf` file; and `none` when no
`.gguf` file exists.  Stated as: the source's `find_best_gguf_file`
coincides with the resolver transcribed from the specification. -/
theorem claim_C1 (files : List String) : find_best_gguf_file files = resolverSpec files := by
  simp only [find_best_gguf_file, resolverSpec]
  rw [filter_and_eq_filter_filter]
  have hq4 : lexFirstMatch QUANTIZATION (files.filter fun f => endsWithStr f ".gguf") =
      lexFirst ((files.filter fun f => endsWithStr f ".gguf").filter
        fun f => strContains f QUANTIZATION) := rfl
  cases hc : (files.filter fun f => endsWithStr f ".gguf").filter
      (fun f => strContains f QUANTIZATION) with
  | cons y ys =>
    have hm : lexFirstMatch QUANTIZATION (files.filter fun f => endsWithStr f ".gguf") =
        some (foldlMin y ys) := by rw [hq4, hc]; rfl
    rw [hm]
    simp only [List.isEmpty_cons, Bool.not_false, if_true]
    rw [sortedHead_eq_lexFirst]
    rfl
  | nil =>
    have hm : lexFirstMatch QUANTIZATION (files.filter fun f => endsWithStr f ".gguf") =
        none := by rw [hq4, hc]; rfl
    rw [hm]
    simp only [List.isEmpty_nil, Bool.not_true, Bool.false_eq_true, if_false]
    cases hg : files.filter (fun f => endsWithStr f ".gguf") with
    | nil =>
      have hfs : List.findSome? (fun p => lexFirstMatch p ([] : List String))
          fallbackQuantPatterns = none := by
        simp [lexFirstMatch, lexFirst]
      simp only [List.isEmpty_nil, Bool.not_true, Bool.false_eq_true, if_false, hfs]
      rfl
    | cons g gs =>
      simp only [List.isEmpty_cons, Bool.not_false, if_true]
      rw [← tryPatterns_eq_findSome]
      cases htp : tryPatterns fallbackQuantPatterns (g :: gs) with
      | some f => rfl
      | none =>
        rw [sortedHead_eq_lexFirst]

/-! ### Lemmas: the filtering loop -/

theorem mem_filterLoop (cats : Option (List String)) (small : Bool) (maxM : Nat) :
    ∀ (ms acc : List Model) (m : Model), m ∈ filterLoop cats small maxM acc ms →
      m ∈ acc ∨ keepModel cats small m.id = true
  | [], _, _, h => Or.inl h
  | m' :: ms, acc, m, h => by
    rw [filterLoop] at h
    by_cases hk : keepModel cats small m'.id = true
    · rw [if_pos hk] at h
      by_cases hb : maxM ≤ (acc ++ [m']).length
      · rw [if_pos hb] at h
        rcases List.mem_append.mp h with h | h
        · exact Or.inl h
        · simp at h
          subst h
          exact Or.inr hk
      · rw [if_neg hb] at h
        rcases mem_filterLoop cats small maxM ms (acc ++ [m']) m h with h | h
        · rcases List.mem_append.mp h with h | h
          · exact Or.inl h
          · simp at h
            subst h
            exact Or.inr hk
        · exact Or.inr h
    · rw [if_neg hk] at h
      exact mem_filterLoop cats small maxM ms acc m h

theorem filterLoop_length (cats : Option (List String)) (small : Bool) (maxM : Nat) :
    ∀ (ms acc : List Model), acc.length < maxM →
      (filterLoop cats small maxM acc ms).length ≤ maxM
  | [], _, h => by
    rw [filterLoop]
    omega
  | m :: ms, acc, h => by
    rw [filterLoop]
    by_cases hk : keepModel cats small m.id = true
    · rw [if_pos hk]
      by_cases hb : maxM ≤ (acc ++ [m]).length
      · rw [if_pos hb]
        simp only [List.length_append, List.length_cons, List.length_nil]
        omega
      · rw [if_neg hb]
        refine filterLoop_length cats small maxM ms (acc ++ [m]) ?_
        simp only [List.length_append, List.length_cons, List.length_nil] at hb ⊢
        omega
    · rw [if_neg hk]
      exact filterLoop_length cats small maxM ms acc h

theorem filterLoop_sublist (cats : Option (List String)) (small : Bool) (maxM : Nat) :
    ∀ (ms acc : List Model), ∃ t, filterLoop cats small maxM acc ms = acc ++ t ∧
      List.Sublist t ms
  | [], acc => ⟨[], by rw [filterLoop]; simp, List.Sublist.slnil⟩
  | m :: ms, acc => by
    rw [filterLoop]
    by_cases hk : keepModel cats small m.id = true
    · rw [if_pos hk]
      by_cases hb : maxM ≤ (acc ++ [m]).length
      · rw [if_pos hb]
        exact ⟨[m], rfl, (List.nil_sublist ms).cons₂ m⟩
      · rw [if_neg hb]
        obtain ⟨t, ht, hs⟩ := filterLoop_sublist cats small maxM ms (acc ++ [m])
        refine ⟨m :: t, ?_, hs.cons₂ m⟩
        rw [ht]
        simp
    · rw [if_neg hk]
      obtain ⟨t, ht, hs⟩ := filterLoop_sublist cats small maxM ms acc
      exact ⟨t, ht, hs.cons m⟩

theorem filterLoop_all (cats : Option (List String)) (small : Bool) (maxM : Nat) :
    ∀ (ms acc : List Model),
      acc.length + (ms.filter fun m => keepModel cats small m.id).length < maxM →
      filterLoop cats small maxM acc ms = acc ++ ms.filter fun m => keepModel cats small m.id
  | [], acc, _ => by
    rw [filterLoop]
    simp
  | m :: ms, acc, h => by
    rw [filterLoop]
    by_cases hk : keepModel cats small m.id = true
    · have hfil : (m :: ms).filter (fun m => keepModel cats small m.id) =
          m :: ms.filter (fun m => keepModel cats small m.id) := by
        simp [List.filter_cons, hk]
      rw [hfil] at h
      rw [if_pos hk]
      by_cases hb : maxM ≤ (acc ++ [m]).length
      · exfalso
        simp only [List.length_append, List.length_cons, List.length_nil] at hb h
        omega
      · rw [if_neg hb]
        rw [filterLoop_all cats small maxM ms (acc ++ [m]) ?_, hfil]
        · simp
        · simp only [List.length_append, List.length_cons, List.length_nil] at h ⊢
          omega
    · have hfil : (m :: ms).filter (fun m => keepModel cats small m.id) =
          ms.filter (fun m => keepModel cats small m.id) := by
        simp [List.filter_cons, hk]
      rw [hfil] at h
      rw [if_neg hk, filterLoop_all cats small maxM ms acc h, hfil]

/-- Claim C2: when `small_only` is set, every model surviving the
candidate filter has at least one small-size marker and no large-size
marker in its (lower-cased) id — an id with any of `70b, 30b, 40b, 65b,
13b` is excluded even if it also has a small marker, and an id with none
of `1b, 2b, 3b, 5b, 7b, 8b` is excluded. -/
theorem claim_C2 (models : List Model) (max_models : Nat) (categories : Option (List String))
    (m : Model) (hm : m ∈ get_trending_gguf_models models max_models true categories) :
    (smallSizeMarkers.any fun x => strContains (toLowerStr m.id) x) = true ∧
    (largeSizeMarkers.any fun x => strContains (toLowerStr m.id) x) = false := by
  rcases mem_filterLoop categories true max_models models [] m hm with h | h
  · simp at h
  · rw [keepModel, Bool.and_eq_true] at h
    have hs := h.2
    simp only [Bool.not_true, Bool.false_or] at hs
    rw [sizePass, Bool.and_eq_true] at hs
    refine ⟨hs.2, ?_⟩
    have := hs.1
    rwa [Bool.not_eq_true'] at this

/-- Witness for claim C2 at a concrete candidate list. -/
theorem claim_C2_wit :
    (smallSizeMarkers.any fun x => strContains (toLowerStr "org/tiny-1b") x) = true ∧
    (largeSizeMarkers.any fun x => strContains (toLowerStr "org/tiny-1b") x) = false :=
  claim_C2 [⟨"org/tiny-1b", 5⟩] 5 none ⟨"org/tiny-1b", 5⟩ (by decide)

/-- Claim C3 counterexample: with `max_models = 0`, the loop appends a
qualifying model before testing the bound, so the output length exceeds
the requested maximum. -/
theorem claim_C3_cex :
    ¬ (get_trending_gguf_models [⟨"org/m", 1⟩] 0 false none).length ≤ 0 := by decide

/-- Claim C3 (amended): for every requested maximum of at least 1, the
candidate filter's output has length at most the maximum (for
`max_models = 0` the append-then-test loop can emit one model); for
every input the output is a subsequence of the input preserving its
relative order; and when fewer qualifying descriptors exist than
requested, the full (shorter) qualifying sequence is returned without
error. -/
theorem claim_C3 (models : List Model) (max_models : Nat) (small_only : Bool)
    (categories : Option (List String)) :
    (1 ≤ max_models →
      (get_trending_gguf_models models max_models small_only categories).length ≤ max_models) ∧
    List.Sublist (get_trending_gguf_models models max_models small_only categories) models ∧
    ((models.filter fun m => keepModel categories small_only m.id).length < max_models →
      get_trending_gguf_models models max_models small_only categories =
        models.filter fun m => keepModel categories small_only m.id) := by
  refine ⟨?_, ?_, ?_⟩
  · intro h1
    exact filterLoop_length categories small_only max_models models [] (by simpa using h1)
  · obtain ⟨t, ht, hs⟩ := filterLoop_sublist categories small_only max_models models []
    rw [get_trending_gguf_models, ht]
    simpa using hs
  · intro h
    rw [get_trending_gguf_models,
      filterLoop_all categories small_only max_models models [] (by simpa using h)]
    simp

/-- Witness for claim C3 at a concrete candidate list. -/
theorem claim_C3_wit :
    (get_trending_gguf_models [⟨"org/a", 1⟩, ⟨"org/b", 2⟩] 5 false none).length ≤ 5 ∧
    List.Sublist (get_trending_gguf_models [⟨"org/a", 1⟩, ⟨"org/b", 2⟩] 5 false none)
      [⟨"org/a", 1⟩, ⟨"org/b", 2⟩] ∧
    get_trending_gguf_models [⟨"org/a", 1⟩, ⟨"org/b", 2⟩] 5 false none =
      [⟨"org/a", 1⟩, ⟨"org/b", 2⟩].filter (fun m => keepModel none false m.id) :=
  ⟨(claim_C3 [⟨"org/a", 1⟩, ⟨"org/b", 2⟩] 5 false none).1 (by decide),
   (claim_C3 [⟨"org/a", 1⟩, ⟨"org/b", 2⟩] 5 false none).2.1,
   (claim_C3 [⟨"org/a", 1⟩, ⟨"org/b", 2⟩] 5 false none).2.2 (by decide)⟩

/-! ### Lemmas: the emitted configuration text -/

theorem config_content_starts (n f : String) (c : Nat) :
    strStarts (config_content n f c) ("name: " ++ n ++ "\n") = true := by
  rw [strStarts]
  apply (isPrefixOf_iff_exists _ _).mpr
  refine ⟨("backend: llama-cpp\nparameters:\n  model: /models/" ++ f ++
    "\n  context_size: 2048\n  threads: " ++ toString (recommended_threads c) ++
    configTail).data, ?_⟩
  simp only [config_content, strData_append]
  simp [List.append_assoc]

theorem config_content_contains_model (n f : String) (c : Nat) :
    strContains (config_content n f c) ("model: /models/" ++ f ++ "\n") = true := by
  rw [strContains]
  apply (listContainsSub_iff _ _).mpr
  refine ⟨("name: " ++ n ++ "\nbackend: llama-cpp\nparameters:\n  ").data,
    ("  context_size: 2048\n  threads: " ++ toString (recommended_threads c) ++
      configTail).data, ?_⟩
  simp only [config_content, strData_append]
  simp [List.append_assoc]

theorem config_content_contains_ctx (n f : String) (c : Nat) :
    strContains (config_content n f c) "context_size: 2048" = true := by
  rw [strContains]
  apply (listContainsSub_iff _ _).mpr
  refine ⟨("name: " ++ n ++ "\nbackend: llama-cpp\nparameters:\n  model: /models/" ++ f ++
    "\n  ").data,
    ("\n  threads: " ++ toString (recommended_threads c) ++ configTail).data, ?_⟩
  simp only [config_content, strData_append]
  simp [List.append_assoc]

theorem config_content_contains_threads (n f : String) (c : Nat) :
    strContains (config_content n f c)
      ("threads: " ++ toString (recommended_threads c)) = true := by
  rw [strContains]
  apply (listContainsSub_iff _ _).mpr
  refine ⟨("name: " ++ n ++ "\nbackend: llama-cpp\nparameters:\n  model: /models/" ++ f ++
    "\n  context_size: 2048\n  ").data, configTail.data, ?_⟩
  simp only [config_content, strData_append]
  simp [List.append_assoc]

/-- All the facts claim C6 asserts about one emitted configuration. -/
def configOk (model_name model_file : String) (cpu_cores : Nat) : Prop :=
  strStarts (config_content model_name model_file cpu_cores)
    ("name: " ++ model_name ++ "\n") = true ∧
  strContains (config_content model_name model_file cpu_cores)
    ("model: /models/" ++ model_file ++ "\n") = true ∧
  strContains (config_content model_name model_file cpu_cores) "context_size: 2048" = true ∧
  strContains (config_content model_name model_file cpu_cores)
    ("threads: " ++ toString (recommended_threads cpu_cores)) = true ∧
  recommended_threads cpu_cores = max 2 (min (cpu_cores / 2) 8) ∧
  2 ≤ recommended_threads cpu_cores ∧ recommended_threads cpu_cores ≤ 8

/-- Claim C6: the Config Emitter's output declares the local name on its
`name:` line, the model path `/models/<file base name>`, context size
exactly 2048, and a thread count `max(2, min(cpu_cores // 2, 8))`, which
lies in `[2, 8]` for every positive core count; a 1-core host gets 2
threads and a 32-core host gets 8. -/
theorem claim_C6 (model_name model_file : String) (cpu_cores : Nat) (_h : 0 < cpu_cores) :
    configOk model_name model_file cpu_cores ∧
    recommended_threads 1 = 2 ∧ recommended_threads 32 = 8 := by
  refine ⟨⟨config_content_starts model_name model_file cpu_cores,
    config_content_contains_model model_name model_file cpu_cores,
    config_content_contains_ctx model_name model_file cpu_cores,
    config_content_contains_threads model_name model_file cpu_cores,
    rfl, le_max_left _ _, max_le (by norm_num) (min_le_right _ _)⟩, by decide, by decide⟩

/-- Witness for claim C6 on a 4-core host. -/
theorem claim_C6_wit :
    configOk "mymodel" "f.gguf" 4 ∧ recommended_threads 1 = 2 ∧ recommended_threads 32 = 8 :=
  claim_C6 "mymodel" "f.gguf" 4 (by decide)

/-! ### Lemmas: alias rewriting -/

theorem config_content_split (n f : String) (c : Nat) :
    (config_content n f c).data =
      ("name: " ++ n).data ++ ('\n' ::
        ("backend: llama-cpp\nparameters:\n  model: /models/" ++ f ++
         "\n  context_size: 2048\n  threads: " ++ toString (recommended_threads c) ++
         configTail).data) := by
  simp only [config_content, strData_append]
  simp [List.append_assoc]

theorem name_pat_cons (old : String) :
    ("name: " ++ old).data = 'n' :: ("ame: " ++ old).data := rfl

theorem alias35_starts (old f : String) (c : Nat) :
    strStarts (alias35content old (config_content old f c)) "name: gpt-3.5-turbo\n" = true := by
  rw [strStarts, alias35content, strReplace]
  show ("name: gpt-3.5-turbo\n").data.isPrefixOf
    (pyReplace ("name: " ++ old).data "name: gpt-3.5-turbo".data
      (config_content old f c).data) = true
  rw [config_content_split old f c, pyReplace_front (by rw [name_pat_cons]; simp),
    name_pat_cons, pyReplace_cons_ne (by decide)]
  apply (isPrefixOf_iff_exists _ _).mpr
  refine ⟨pyReplace ('n' :: ("ame: " ++ old).data) "name: gpt-3.5-turbo".data
    ("backend: llama-cpp\nparameters:\n  model: /models/" ++ f ++
     "\n  context_size: 2048\n  threads: " ++ toString (recommended_threads c) ++
     configTail).data, ?_⟩
  simp

theorem alias4_starts (old f : String) (c : Nat) :
    strStarts (alias4content old (config_content old f c)) "name: gpt-4\n" = true := by
  rw [alias4content]
  have h1 : strReplace (config_content old f c) ("name: " ++ old) "name: gpt-4" =
      String.mk ("name: gpt-4".data ++ '\n' ::
        pyReplace ("name: " ++ old).data "name: gpt-4".data
          ("backend: llama-cpp\nparameters:\n  model: /models/" ++ f ++
           "\n  context_size: 2048\n  threads: " ++ toString (recommended_threads c) ++
           configTail).data) := by
    rw [strReplace]
    rw [config_content_split old f c, pyReplace_front (by rw [name_pat_cons]; simp),
      name_pat_cons, pyReplace_cons_ne (by decide)]
  rw [h1, strStarts, strReplace]
  have hctx : ("context_size: 2048" : String).data =
      'c' :: ("ontext_size: 2048" : String).data := rfl
  have hsplit : "name: gpt-4".data ++ '\n' ::
      pyReplace ("name: " ++ old).data "name: gpt-4".data
        ("backend: llama-cpp\nparameters:\n  model: /models/" ++ f ++
         "\n  context_size: 2048\n  threads: " ++ toString (recommended_threads c) ++
         configTail).data =
      "name: gpt-4\n".data ++
      pyReplace ("name: " ++ old).data "name: gpt-4".data
        ("backend: llama-cpp\nparameters:\n  model: /models/" ++ f ++
         "\n  context_size: 2048\n  threads: " ++ toString (recommended_threads c) ++
         configTail).data := by
    simp
  rw [hsplit, hctx, pyReplace_append_not_head (by decide)]
  apply (isPrefixOf_iff_exists _ _).mpr
  exact ⟨_, rfl⟩

/-- Claim C7: every configuration file written by the run has its
declared name equal to its filename stem at creation time:
`create_model_config` writes `name: <n>` as the first line of
`<config_dir>/<n>.yaml`, and the Alias Emitter, when it copies a config
under the stem `gpt-3.5-turbo` or `gpt-4`, rewrites the name line to
that new stem. -/
theorem claim_C7 (n f config_dir : String) (c : Nat) (old oldf : String) (oc : Nat) :
    (create_model_config n f config_dir c).1 = config_dir ++ "/" ++ n ++ ".yaml" ∧
    strStarts (create_model_config n f config_dir c).2 ("name: " ++ n ++ "\n") = true ∧
    strStarts (alias35content old (config_content old oldf oc)) "name: gpt-3.5-turbo\n" = true ∧
    strStarts (alias4content old (config_content old oldf oc)) "name: gpt-4\n" = true :=
  ⟨rfl, config_content_starts n f c, alias35_starts old oldf oc, alias4_starts old oldf oc⟩

/-! ### Lemmas: the per-model loop skips failures -/

theorem processStep_skip (config_dir : String) (cores : Nat) (acc : RunResult) (m : ModelEnv)
    (h : resolveFiles m = none ∨ m.downloadOk = false) :
    processStep config_dir cores acc m = acc := by
  rcases h with h | h
  · rw [processStep, h]
  · rw [processStep]
    cases hr : resolveFiles m with
    | none => rfl
    | some fn => simp [h]

/-- Claim C8: per-model failures are local and non-fatal.  If the
resolver yields no suitable file for a model (including a failed
repository listing) or its download fails, the run over a candidate list
containing that model produces exactly the configs and downloaded-names
list of the run without it: nothing is written for the failed model and
processing continues with the remaining models. -/
theorem claim_C8 (config_dir : String) (cores : Nat) (ms₁ ms₂ : List ModelEnv) (m : ModelEnv)
    (h : resolveFiles m = none ∨ m.downloadOk = false) :
    processModels config_dir cores (ms₁ ++ m :: ms₂) =
      processModels config_dir cores (ms₁ ++ ms₂) := by
  rw [processModels, processModels, List.foldl_append, List.foldl_append, List.foldl_cons,
    processStep_skip config_dir cores _ m h]

/-- Witness for claim C8: a model whose repository listing raised. -/
theorem claim_C8_wit :
    (resolveFiles ⟨"org/x", none, true⟩ = none ∨
      (⟨"org/x", none, true⟩ : ModelEnv).downloadOk = false) ∧
    processModels "/opt/localai/config" 4 [⟨"org/x", none, true⟩] =
      processModels "/opt/localai/config" 4 [] :=
  ⟨Or.inl rfl, claim_C8 "/opt/localai/config" 4 [] [] ⟨"org/x", none, true⟩ (Or.inl rfl)⟩

/-- Claim C9: the Alias Emitter creates no `gpt-3.5-turbo.yaml` when no
downloaded name contains one of `phi, gemma-2, mistral, llama-3-1b`
(case-insensitively), and no `gpt-4.yaml` when no downloaded name
contains one of `llama-3-8, mistral-7, llama-3.1-8`; and a
source-missing alias slot is skipped without error: when the first
matched name for a slot has no config file (the lookup returns `none`),
that slot's alias file is not created either. -/
theorem claim_C9 (lookup : String → Option String) (downloaded : List String) :
    ((∀ n ∈ downloaded, (gpt35Markers.any fun x => strContains (toLowerStr n) x) = false) →
      "gpt-3.5-turbo.yaml" ∉ (create_openai_aliases lookup downloaded).map Prod.fst) ∧
    ((∀ n ∈ downloaded, (gpt4Markers.any fun x => strContains (toLowerStr n) x) = false) →
      "gpt-4.yaml" ∉ (create_openai_aliases lookup downloaded).map Prod.fst) ∧
    (∀ small rest,
      downloaded.filter (fun m => gpt35Markers.any fun x => strContains (toLowerStr m) x) =
        small :: rest →
      lookup small = none →
      "gpt-3.5-turbo.yaml" ∉ (create_openai_aliases lookup downloaded).map Prod.fst) ∧
    (∀ large rest,
      downloaded.filter (fun m => gpt4Markers.any fun x => strContains (toLowerStr m) x) =
        large :: rest →
      lookup large = none →
      "gpt-4.yaml" ∉ (create_openai_aliases lookup downloaded).map Prod.fst) := by
  refine ⟨?_, ?_, ?_, ?_⟩
  · intro h35
    rw [create_openai_aliases]
    cases hde : downloaded.isEmpty with
    | true => simp
    | false =>
      simp only [Bool.false_eq_true, if_false]
      have hf : downloaded.filter
          (fun m => gpt35Markers.any fun x => strContains (toLowerStr m) x) = [] :=
        filter_nil_of_none _ h35
      rw [hf]
      cases hg : downloaded.filter
          (fun m => gpt4Markers.any fun x => strContains (toLowerStr m) x) with
      | nil => simp
      | cons lm rest =>
        cases hl : lookup lm with
        | none => simp [hl]
        | some cfg => simp [hl]
  · intro h4
    rw [create_openai_aliases]
    cases hde : downloaded.isEmpty with
    | true => simp
    | false =>
      simp only [Bool.false_eq_true, if_false]
      have hf : downloaded.filter
          (fun m => gpt4Markers.any fun x => strContains (toLowerStr m) x) = [] :=
        filter_nil_of_none _ h4
      rw [hf]
      cases hg : downloaded.filter
          (fun m => gpt35Markers.any fun x => strContains (toLowerStr m) x) with
      | nil => simp
      | cons sm rest =>
        cases hl : lookup sm with
        | none => simp [hl]
        | some cfg => simp [hl]
  · intro small rest hfil hlook
    rw [create_openai_aliases]
    cases hde : downloaded.isEmpty with
    | true => simp
    | false =>
      simp only [Bool.false_eq_true, if_false]
      rw [hfil]
      cases hg : downloaded.filter
          (fun m => gpt4Markers.any fun x => strContains (toLowerStr m) x) with
      | nil => simp [hlook]
      | cons lm rest2 =>
        cases hl : lookup lm with
        | none => simp [hlook, hl]
        | some cfg => simp [hlook, hl]
  · intro large rest hfil hlook
    rw [create_openai_aliases]
    cases hde : downloaded.isEmpty with
    | true => simp
    | false =>
      simp only [Bool.false_eq_true, if_false]
      rw [hfil]
      cases hg : downloaded.filter
          (fun m => gpt35Markers.any fun x => strContains (toLowerStr m) x) with
      | nil => simp [hlook]
      | cons sm rest2 =>
        cases hl : lookup sm with
        | none => simp [hlook, hl]
        | some cfg => simp [hlook, hl]

/-- Witness for claim C9: a downloaded-names list matching no alias
marker, and one whose sole name matches both alias slots while its
config file is missing — the lookup is consulted and returns `none`. -/
theorem claim_C9_wit :
    ("gpt-3.5-turbo.yaml" ∉
      (create_openai_aliases (fun _ => none) ["qwen2-4b"]).map Prod.fst) ∧
    ("gpt-4.yaml" ∉
      (create_openai_aliases (fun _ => none) ["qwen2-4b"]).map Prod.fst) ∧
    ("gpt-3.5-turbo.yaml" ∉
      (create_openai_aliases (fun _ => none) ["mistral-7b"]).map Prod.fst) ∧
    ("gpt-4.yaml" ∉
      (create_openai_aliases (fun _ => none) ["mistral-7b"]).map Prod.fst) :=
  ⟨(claim_C9 (fun _ => none) ["qwen2-4b"]).1 (by decide),
   (claim_C9 (fun _ => none) ["qwen2-4b"]).2.1 (by decide),
   (claim_C9 (fun _ => none) ["mistral-7b"]).2.2.1 "mistral-7b" [] (by decide) rfl,
   (claim_C9 (fun _ => none) ["mistral-7b"]).2.2.2 "mistral-7b" [] (by decide) rfl⟩

/-! ### Lemmas: normalized names contain only safe characters -/

theorem strData_mk (l : List Char) : (String.mk l).data = l := rfl

theorem toLower_eq_dot {c : Char} (h : c.toLower = '.') : c = '.' := by
  simp only [Char.toLower] at h
  split at h
  · exfalso
    rename_i hcond
    obtain ⟨h1, h2⟩ := hcond
    generalize hn : Char.toNat c = n at h1 h2 h
    interval_cases n <;> exact absurd h (by decide)
  · exact h

theorem stripDash_subset {c : Char} {l : List Char} (h : c ∈ stripDashUnderscore l) :
    c ∈ l := by
  rw [stripDashUnderscore, List.mem_reverse] at h
  have h2 := (List.dropWhile_sublist (p := isStripChar)).subset h
  rw [List.mem_reverse] at h2
  exact (List.dropWhile_sublist (p := isStripChar)).subset h2

/-- Claim C10: every character of a normalized model name is an ASCII
alphanumeric, `-` or `_`; in particular `.` never occurs, so the gpt-4
alias marker `llama-3.1-8` (which contains a dot) can never be a
substring of any name produced by this run — the marker never selects an
alias candidate. -/
theorem claim_C10 (id : String) :
    (∀ c ∈ (normalizeName id).data, c.isAlphanum = true ∨ c = '-' ∨ c = '_') ∧
    '.' ∉ (normalizeName id).data ∧
    strContains (toLowerStr (normalizeName id)) "llama-3.1-8" = false := by
  have hchars : ∀ c ∈ (normalizeName id).data, c.isAlphanum = true ∨ c = '-' ∨ c = '_' := by
    intro c hc
    simp only [normalizeName, strData_mk] at hc
    have hc2 := stripDash_subset hc
    rcases List.mem_map.mp hc2 with ⟨d, _, rfl⟩
    rw [sanitizeChar]
    by_cases hb : (d.isAlphanum || d == '-' || d == '_') = true
    · rw [if_pos hb]
      have := hb
      simp at this
      tauto
    · rw [if_neg hb]
      right
      left
      rfl
  have hno : '.' ∉ (normalizeName id).data := by
    intro hdot
    rcases hchars '.' hdot with h | h | h
    · exact absurd h (by decide)
    · exact absurd h (by decide)
    · exact absurd h (by decide)
  refine ⟨hchars, hno, ?_⟩
  by_contra hcon
  rw [Bool.not_eq_false, strContains] at hcon
  have hdot : ('.' : Char) ∈ (toLowerStr (normalizeName id)).data :=
    char_mem_of_contains hcon (by decide)
  rw [toLowerStr, strData_mk] at hdot
  rcases List.mem_map.mp hdot with ⟨d, hd, hlow⟩
  rw [toLower_eq_dot hlow] at hd
  exact hno hd
